import Mathlib

/-!
# Verification of `streams-rs` (MultiWriter / RoundRobinCopier)

Shallow embedding of the two components of the repository:

* `MultiWriter` (src/multiwriters.rs): fans a single `write` out to a
  sequence of sinks, calling `write_all` on each one sequentially; `flush`
  flushes each sink sequentially; `copy_into_many` drives `std::io::copy`
  with a `MultiWriter` as the destination.
* `RoundRobinCopier` (src/round_robin_copiers.rs): holds a sequence of
  sinks together with a cursor `current`; each `copy` call copies an entire
  source into the sink at the cursor and advances the cursor by one,
  modulo the number of sinks, unconditionally.

A sink (`dyn Write`) is modelled as its accumulated byte content together
with a deterministic script (`plan`) describing the outcome of each
successive low-level `write` call (accept `n` bytes, or fail), and a
script (`fplan`) for successive `flush` calls; an exhausted script means
the sink accepts everything / flushes cleanly (like `Vec<u8>`). A source
(`dyn Read`) is modelled as a script of `read` outcomes: yield a chunk of
bytes, or fail; an exhausted script or an empty chunk is a zero-byte read,
which `std::io::copy` treats as end of input.

Bytes are modelled as `Nat` (the Rust code never inspects byte values, so
no width bound is needed for any property here); Rust panics (modulo by
zero, out-of-bounds indexing) are modelled as `Option.none`.
-/

set_option autoImplicit false

namespace Streams

/-- An opaque I/O error, as in `std::io::Error`: either the `WriteZero`
error produced by `write_all` when a writer accepts zero bytes of a
non-empty buffer, or an arbitrary error carried by a sink or source. -/
inductive IOError where
  | writeZero
  | custom (code : Nat)
  deriving DecidableEq, Repr

/-- Outcome of one low-level `write` call of a sink: accept (up to) `n`
bytes of the offered buffer, or fail with an error. -/
inductive WResp where
  | accept (n : Nat)
  | fail (e : IOError)
  deriving DecidableEq, Repr

/-- Outcome of one `read` call of a source: yield a chunk of bytes
(an empty chunk is a zero-byte read, i.e. end of input), or fail. -/
inductive RResp where
  | give (bs : List Nat)
  | fail (e : IOError)
  deriving DecidableEq, Repr

/-- A sink (`&mut dyn Write`): accumulated content, the script of
remaining `write` outcomes, the script of remaining `flush` outcomes
(`none` = flush succeeds, `some e` = flush fails with `e`; an exhausted
script behaves like `Vec<u8>`: accept everything, flush cleanly), and a
counter of how many times `flush` has been invoked on it. -/
structure Sink where
  content : List Nat
  plan : List WResp
  fplan : List (Option IOError)
  flushCount : Nat
  deriving DecidableEq, Repr

/-- One step plus loop of `std::io::Write::write_all` on a scripted sink:
while the buffer is non-empty, call `write`; `Ok(0)` yields the
`WriteZero` error, `Ok(n)` drops the first `n` bytes of the buffer and
continues, an error is returned at once. Returns the result, the new
content and the remaining write script. -/
def writeAllGo : List WResp → List Nat → List Nat →
    Except IOError Unit × List Nat × List WResp
  | plan, content, [] => (.ok (), content, plan)
  | [], content, b :: bs => (.ok (), content ++ b :: bs, [])
  | .accept n :: rest, content, b :: bs =>
    let buf := b :: bs
    let k := min n buf.length
    if k = 0 then
      (.error .writeZero, content, rest)
    else
      writeAllGo rest (content ++ buf.take k) (buf.drop k)
  | .fail e :: rest, content, _ :: _ => (.error e, content, rest)

/-- `Write::write_all` on a sink: loop `write` until the whole buffer is
accepted or an error occurs. -/
def Sink.write_all (s : Sink) (buf : List Nat) : Except IOError Unit × Sink :=
  match writeAllGo s.plan s.content buf with
  | (r, c, p) => (r, { s with content := c, plan := p })

/-- `Write::flush` on a scripted sink: consume the next flush outcome
(an exhausted script flushes cleanly) and record the invocation. -/
def Sink.flush (s : Sink) : Except IOError Unit × Sink :=
  match s.fplan with
  | [] => (.ok (), { s with flushCount := s.flushCount + 1 })
  | none :: rest =>
    (.ok (), { s with fplan := rest, flushCount := s.flushCount + 1 })
  | some e :: rest =>
    (.error e, { s with fplan := rest, flushCount := s.flushCount + 1 })

/-- `MultiWriter` (src/multiwriters.rs): an ordered sequence of sinks. -/
structure MultiWriter where
  writers : List Sink
  deriving DecidableEq, Repr

/-- The loop body of `MultiWriter::write`:
`for writer in &mut self.writers { writer.write_all(buf)?; }` —
call `write_all` on each sink in sequence, halting at the first error. -/
def mwWriteGo : List Sink → List Nat → Except IOError Unit × List Sink
  | [], _ => (.ok (), [])
  | s :: rest, buf =>
    match s.write_all buf with
    | (.error e, s') => (.error e, s' :: rest)
    | (.ok _, s') =>
      match mwWriteGo rest buf with
      | (r, rest') => (r, s' :: rest')

/-- `MultiWriter::write`: write the buffer into each internal writer
sequentially via `write_all`; on success return `buf.len()`. -/
def MultiWriter.write (m : MultiWriter) (buf : List Nat) :
    Except IOError Nat × MultiWriter :=
  match mwWriteGo m.writers buf with
  | (.ok _, ws') => (.ok buf.length, ⟨ws'⟩)
  | (.error e, ws') => (.error e, ⟨ws'⟩)

/-- The loop body of `MultiWriter::flush`:
`for writer in &mut self.writers { writer.flush()?; }`. -/
def mwFlushGo : List Sink → Except IOError Unit × List Sink
  | [] => (.ok (), [])
  | s :: rest =>
    match s.flush with
    | (.error e, s') => (.error e, s' :: rest)
    | (.ok _, s') =>
      match mwFlushGo rest with
      | (r, rest') => (r, s' :: rest')

/-- `MultiWriter::flush`: flush each internal sink sequentially, halting
at the first error. -/
def MultiWriter.flush (m : MultiWriter) : Except IOError Unit × MultiWriter :=
  match mwFlushGo m.writers with
  | (r, ws') => (r, ⟨ws'⟩)

/-- `MultiWriter::write_all`: calls `write` and discards the returned
byte count. -/
def MultiWriter.write_all (m : MultiWriter) (buf : List Nat) :
    Except IOError Unit × MultiWriter :=
  match m.write buf with
  | (.ok _, m') => (.ok (), m')
  | (.error e, m') => (.error e, m')

/-- The generic loop of `std::io::copy`, over any writer state `σ` with a
`write_all` operation: read a chunk from the source; a zero-byte read
(empty chunk or exhausted source) ends the copy with the accumulated
total; otherwise `write_all` the chunk into the writer and add its length
to the total; any read or write error is returned at once. -/
def copyGo {σ : Type} (wa : σ → List Nat → Except IOError Unit × σ) :
    List RResp → σ → Nat → Except IOError Nat × List RResp × σ
  | [], w, total => (.ok total, [], w)
  | .give [] :: rest, w, total => (.ok total, rest, w)
  | .give (b :: bs) :: rest, w, total =>
    match wa w (b :: bs) with
    | (.error e, w') => (.error e, rest, w')
    | (.ok _, w') => copyGo wa rest w' (total + (b :: bs).length)
  | .fail e :: rest, w, _ => (.error e, rest, w)

/-- `std::io::copy` from a scripted source into a single sink. -/
def ioCopy (src : List RResp) (w : Sink) : Except IOError Nat × List RResp × Sink :=
  copyGo Sink.write_all src w 0

/-- `copy_into_many` (src/multiwriters.rs): build a `MultiWriter` over
the given writers and run `std::io::copy` into it (each chunk goes
through `MultiWriter::write_all`). -/
def copy_into_many (src : List RResp) (writers : List Sink) :
    Except IOError Nat × List RResp × MultiWriter :=
  copyGo MultiWriter.write_all src ⟨writers⟩ 0

/-- `RoundRobinCopier` (src/round_robin_copiers.rs): an ordered sequence
of sinks plus the cursor `current`. -/
structure RoundRobinCopier where
  writers : List Sink
  current : Nat
  deriving DecidableEq, Repr

/-- `RoundRobinCopier::new`: store the writers, cursor starts at 0. -/
def RoundRobinCopier.new (writers : List Sink) : RoundRobinCopier :=
  ⟨writers, 0⟩

/-- `RoundRobinCopier::copy`: remember `index = current`, advance
`current = (current + 1) % writers.len()` — in Rust `% 0` panics, which
is modelled as `none` — then `io::copy` the whole source into
`writers[index]` (out-of-bounds indexing would also panic). Returns the
copy result, the updated copier and the remaining source script. -/
def RoundRobinCopier.copy (c : RoundRobinCopier) (src : List RResp) :
    Option (Except IOError Nat × RoundRobinCopier × List RResp) :=
  if c.writers.length = 0 then
    none
  else
    match c.writers[c.current]? with
    | none => none
    | some w =>
      let cur' := (c.current + 1) % c.writers.length
      match ioCopy src w with
      | (r, rest, w') => some (r, ⟨c.writers.set c.current w', cur'⟩, rest)

/-- A fresh in-memory sink (`Vec::<u8>::new()`): empty content, accepts
every write, flushes cleanly. -/
def pureSink : Sink := ⟨[], [], [], 0⟩

/-- A source that yields the given content in one read and is then
exhausted (`&mut &content[..]`). -/
def mkSource (content : List Nat) : List RResp := [RResp.give content]

/-- Run a sequence of `RoundRobinCopier::copy` calls, one source each,
requiring every call to return successfully. -/
def runCopies : RoundRobinCopier → List (List RResp) → Option RoundRobinCopier
  | c, [] => some c
  | c, src :: rest =>
    match c.copy src with
    | some (.ok _, c', _) => runCopies c' rest
    | _ => none

/-- The bytes a source yields before its first zero-byte read (or, for an
erroring source, before the error; a successful copy never reaches that
case). -/
def produced : List RResp → Nat
  | [] => 0
  | .give [] :: _ => 0
  | .give (b :: bs) :: rest => (b :: bs).length + produced rest
  | .fail _ :: _ => 0

/-- The concatenation, in order, of every content `C_i` (indexing the
list from `i`) whose absolute index is congruent to `j` modulo `N`: the
bytes round-robin distribution assigns to sink `j`. -/
def everyNth (N j : Nat) : List (List Nat) → Nat → List Nat
  | [], _ => []
  | c :: rest, i => (if i % N = j then c else []) ++ everyNth N j rest (i + 1)

/-! ## Helper lemmas -/

/-- A successful `write_all` loop appends exactly the whole buffer to the
content. -/
theorem writeAllGo_ok_content (plan : List WResp) :
    ∀ (content buf c' : List Nat) (p' : List WResp),
      writeAllGo plan content buf = (.ok (), c', p') → c' = content ++ buf := by
  induction plan with
  | nil =>
    intro content buf c' p' h
    cases buf with
    | nil => simp [writeAllGo] at h; simp [h.1]
    | cons b bs => simp [writeAllGo] at h; simp [h.1]
  | cons resp rest ih =>
    intro content buf c' p' h
    cases buf with
    | nil => simp [writeAllGo] at h; simp [h.1]
    | cons b bs =>
      cases resp with
      | accept n =>
        simp only [writeAllGo] at h
        split at h
        · exact absurd h (by simp)
        · have := ih _ _ c' p' h
          rw [this, List.append_assoc, List.take_append_drop]
      | fail e => simp [writeAllGo] at h

/-- A successful `Sink.write_all` appends exactly the buffer to the
sink's content and leaves the flush state untouched. -/
theorem Sink.write_all_ok {s : Sink} {buf : List Nat} {s' : Sink}
    (h : s.write_all buf = (.ok (), s')) :
    s'.content = s.content ++ buf ∧ s'.fplan = s.fplan ∧
      s'.flushCount = s.flushCount := by
  unfold Sink.write_all at h
  rcases hg : writeAllGo s.plan s.content buf with ⟨r, c, p⟩
  rw [hg] at h
  cases r with
  | error e => simp at h
  | ok u =>
    cases h
    exact ⟨writeAllGo_ok_content s.plan s.content buf c p hg, rfl, rfl⟩

/-- A sink whose write script is exhausted accepts any buffer whole. -/
theorem Sink.write_all_pure (s : Sink) (hs : s.plan = []) (buf : List Nat) :
    s.write_all buf = (.ok (), { s with content := s.content ++ buf }) := by
  cases buf with
  | nil => simp [Sink.write_all, writeAllGo]
  | cons b bs => simp [Sink.write_all, hs, writeAllGo]

/-- A successful `MultiWriter::write` loop relates the sinks pointwise:
each one's content gains exactly the buffer. -/
theorem mwWriteGo_ok (buf : List Nat) :
    ∀ (ws ws' : List Sink), mwWriteGo ws buf = (.ok (), ws') →
      List.Forall₂
        (fun s s' => s'.content = s.content ++ buf ∧ buf <:+ s'.content)
        ws ws' := by
  intro ws
  induction ws with
  | nil => intro ws' h; simp [mwWriteGo] at h; simp [h]
  | cons s rest ih =>
    intro ws' h
    simp only [mwWriteGo] at h
    rcases hw : s.write_all buf with ⟨r, s₁⟩
    rw [hw] at h
    cases r with
    | error e => simp at h
    | ok u =>
      cases u
      rcases hrest : mwWriteGo rest buf with ⟨r₂, rest'⟩
      rw [hrest] at h
      cases r₂ with
      | error e => simp at h
      | ok u₂ =>
        cases h
        obtain ⟨h1, h2, h3⟩ := Sink.write_all_ok hw
        exact List.Forall₂.cons ⟨h1, s.content, h1.symm⟩ (ih rest' hrest)

/-! ## Claims C1, C2, C8 : `MultiWriter::write` -/

/-- C1. Fan-out correctness: for every `MultiWriter` over any number of
sinks and every byte sequence `buf`, if `write buf` returns success then
every sink has received `buf` appended to its previous content — each
sink's accumulated content afterwards is its old content followed by
exactly `buf`, so in particular it ends with `buf`, in the order
written. -/
theorem multiWriter_write_fanout (m : MultiWriter) (buf : List Nat) (n : Nat)
    (m' : MultiWriter) (h : m.write buf = (.ok n, m')) :
    List.Forall₂ (fun s s' => s'.content = s.content ++ buf ∧ buf <:+ s'.content)
      m.writers m'.writers := by
  unfold MultiWriter.write at h
  rcases hg : mwWriteGo m.writers buf with ⟨r, ws'⟩
  rw [hg] at h
  cases r with
  | error e => simp at h
  | ok u => cases h; exact mwWriteGo_ok buf m.writers ws' hg

/-- Witness for C1 at a concrete input: one fresh sink, buffer `[1, 2]`. -/
theorem multiWriter_write_fanout_witness :
    List.Forall₂
      (fun (s s' : Sink) => s'.content = s.content ++ [1, 2] ∧ [1, 2] <:+ s'.content)
      [pureSink] [⟨[1, 2], [], [], 0⟩] :=
  multiWriter_write_fanout ⟨[pureSink]⟩ [1, 2] 2 ⟨[⟨[1, 2], [], [], 0⟩]⟩ rfl

/-- C2. On success, `MultiWriter::write` reports exactly the length of
the input buffer, never a smaller count. -/
theorem multiWriter_write_full_length (m : MultiWriter) (buf : List Nat)
    (n : Nat) (m' : MultiWriter) (h : m.write buf = (.ok n, m')) :
    n = buf.length := by
  unfold MultiWriter.write at h
  rcases hg : mwWriteGo m.writers buf with ⟨r, ws'⟩
  rw [hg] at h
  cases r with
  | error e => simp at h
  | ok u => cases h; rfl

/-- Witness for C2 at a concrete input. -/
theorem multiWriter_write_full_length_witness :
    (3 : Nat) = ([4, 5, 6] : List Nat).length :=
  multiWriter_write_full_length ⟨[pureSink]⟩ [4, 5, 6] 3
    ⟨[⟨[4, 5, 6], [], [], 0⟩]⟩ rfl

/-- C8. Zero-sink no-op: a `MultiWriter` over the empty sink sequence is
harmless — `write buf` succeeds, reports `buf.length` bytes written, and
the (empty) sink sequence is unchanged, so no sink state is affected. -/
theorem multiWriter_zero_sinks_noop (buf : List Nat) :
    MultiWriter.write ⟨[]⟩ buf = (.ok buf.length, ⟨[]⟩) := by
  simp [MultiWriter.write, mwWriteGo]

/-! ## Claim C3 : fail-fast ordering of `MultiWriter::write` -/

/-- The `MultiWriter::write` loop with the first failing sink at position
`pre.length`: it halts there, the sinks before it have absorbed the
buffer, the sinks after it are untouched. -/
theorem mwWriteGo_err (buf : List Nat) (pre : List Sink) :
    ∀ (sk : Sink) (post : List Sink) (e : IOError) (sk' : Sink),
      (∀ s ∈ pre, ∃ s₂, s.write_all buf = (.ok (), s₂)) →
      sk.write_all buf = (.error e, sk') →
      ∃ pre', mwWriteGo (pre ++ sk :: post) buf = (.error e, pre' ++ sk' :: post) ∧
        List.Forall₂ (fun s s' => s'.content = s.content ++ buf) pre pre' := by
  induction pre with
  | nil =>
    intro sk post e sk' hpre hk
    exact ⟨[], by simp [mwWriteGo, hk], List.Forall₂.nil⟩
  | cons s rest ih =>
    intro sk post e sk' hpre hk
    obtain ⟨s₂, hs⟩ := hpre s (List.mem_cons_self _ _)
    obtain ⟨pre', hgo, hfa⟩ :=
      ih sk post e sk' (fun t ht => hpre t (List.mem_cons_of_mem _ ht)) hk
    refine ⟨s₂ :: pre', ?_, List.Forall₂.cons (Sink.write_all_ok hs).1 hfa⟩
    simp only [List.cons_append, mwWriteGo, hs, List.append_eq, hgo]

/-- C3. Fail-fast ordering: if sink `k = pre.length` is the first sink
whose `write_all` fails during `MultiWriter::write buf`, the call returns
that sink's error, every sink before it has received `buf` in full
(content gains exactly `buf`), and every sink after it is untouched (the
suffix `post` of the sink sequence is returned unchanged). -/
theorem multiWriter_write_failfast (pre : List Sink) (sk : Sink)
    (post : List Sink) (buf : List Nat) (e : IOError) (sk' : Sink)
    (hpre : ∀ s ∈ pre, ∃ s₂, s.write_all buf = (.ok (), s₂))
    (hk : sk.write_all buf = (.error e, sk')) :
    ∃ pre',
      MultiWriter.write ⟨pre ++ sk :: post⟩ buf =
        (.error e, ⟨pre' ++ sk' :: post⟩) ∧
      List.Forall₂ (fun s s' => s'.content = s.content ++ buf) pre pre' := by
  obtain ⟨pre', hgo, hfa⟩ := mwWriteGo_err buf pre sk post e sk' hpre hk
  exact ⟨pre', by simp [MultiWriter.write, hgo], hfa⟩

/-- Witness for C3 at a concrete input: a healthy sink, then a failing
sink, then an unwritten one. -/
theorem multiWriter_write_failfast_witness :
    ∃ pre',
      MultiWriter.write
          ⟨[pureSink] ++ (⟨[], [WResp.fail (IOError.custom 7)], [], 0⟩ : Sink) :: [pureSink]⟩
          [9, 9] =
        (.error (IOError.custom 7), ⟨pre' ++ (⟨[], [], [], 0⟩ : Sink) :: [pureSink]⟩) ∧
      List.Forall₂ (fun (s s' : Sink) => s'.content = s.content ++ [9, 9])
        [pureSink] pre' :=
  multiWriter_write_failfast [pureSink] ⟨[], [WResp.fail (IOError.custom 7)], [], 0⟩
    [pureSink] [9, 9] (IOError.custom 7) ⟨[], [], [], 0⟩
    (fun s hs => ⟨⟨[9, 9], [], [], 0⟩, by
      have hsp : s = pureSink := by simpa using hs
      subst hsp; rfl⟩)
    rfl

/-! ## Claim C4 : `MultiWriter::flush` -/

/-- `Sink.flush` records its invocation unconditionally. -/
theorem Sink.flush_count (s : Sink) : (s.flush).2.flushCount = s.flushCount + 1 := by
  rcases s with ⟨c, p, fp, n⟩
  rcases fp with _ | ⟨oe, rest⟩
  · rfl
  · rcases oe with _ | e <;> rfl

/-- If every sink flushes cleanly, the `MultiWriter::flush` loop flushes
each of them once, in sequence, and succeeds. -/
theorem mwFlushGo_ok :
    ∀ (ws : List Sink), (∀ s ∈ ws, ∃ s₂, s.flush = (.ok (), s₂)) →
      ∃ ws', mwFlushGo ws = (.ok (), ws') ∧
        List.Forall₂ (fun s s' => s'.flushCount = s.flushCount + 1) ws ws' := by
  intro ws
  induction ws with
  | nil => intro _; exact ⟨[], rfl, List.Forall₂.nil⟩
  | cons s rest ih =>
    intro hok
    obtain ⟨s₂, hs⟩ := hok s (List.mem_cons_self _ _)
    obtain ⟨rest', hgo, hfa⟩ := ih (fun t ht => hok t (List.mem_cons_of_mem _ ht))
    refine ⟨s₂ :: rest', by simp only [mwFlushGo, hs, hgo], ?_⟩
    have h2 : s₂.flushCount = s.flushCount + 1 := by
      have := Sink.flush_count s
      rw [hs] at this
      exact this
    exact List.Forall₂.cons h2 hfa

/-- The `MultiWriter::flush` loop with the first failing sink at position
`pre.length`: the sinks up to and including it are each flushed once, the
error propagates, and the sinks after it are untouched. -/
theorem mwFlushGo_err (pre : List Sink) :
    ∀ (sk : Sink) (post : List Sink) (e : IOError) (sk' : Sink),
      (∀ s ∈ pre, ∃ s₂, s.flush = (.ok (), s₂)) →
      sk.flush = (.error e, sk') →
      ∃ pre', mwFlushGo (pre ++ sk :: post) = (.error e, pre' ++ sk' :: post) ∧
        List.Forall₂ (fun s s' => s'.flushCount = s.flushCount + 1) pre pre' := by
  induction pre with
  | nil =>
    intro sk post e sk' hpre hk
    exact ⟨[], by simp [mwFlushGo, hk], List.Forall₂.nil⟩
  | cons s rest ih =>
    intro sk post e sk' hpre hk
    obtain ⟨s₂, hs⟩ := hpre s (List.mem_cons_self _ _)
    obtain ⟨pre', hgo, hfa⟩ :=
      ih sk post e sk' (fun t ht => hpre t (List.mem_cons_of_mem _ ht)) hk
    have h2 : s₂.flushCount = s.flushCount + 1 := by
      have := Sink.flush_count s
      rw [hs] at this
      exact this
    refine ⟨s₂ :: pre', ?_, List.Forall₂.cons h2 hfa⟩
    simp only [List.cons_append, mwFlushGo, hs, List.append_eq, hgo]

/-- C4. Flush propagation: `MultiWriter::flush` invokes `flush` on each
sink in sequence order. If every sink flushes cleanly it returns success
with every sink flushed exactly once; if sink `k = pre.length` is the
first whose flush fails, it returns that error, sinks `0..k-1` and the
failing sink have each been flushed exactly once (invocation counted),
and the sinks after `k` are untouched — `flush` is invoked on no sink
after the first failing one. -/
theorem multiWriter_flush_propagation :
    (∀ (ws : List Sink), (∀ s ∈ ws, ∃ s₂, s.flush = (.ok (), s₂)) →
       ∃ ws', MultiWriter.flush ⟨ws⟩ = (.ok (), ⟨ws'⟩) ∧
         List.Forall₂ (fun s s' => s'.flushCount = s.flushCount + 1) ws ws') ∧
    (∀ (pre : List Sink) (sk : Sink) (post : List Sink) (e : IOError) (sk' : Sink),
       (∀ s ∈ pre, ∃ s₂, s.flush = (.ok (), s₂)) →
       sk.flush = (.error e, sk') →
       ∃ pre',
         MultiWriter.flush ⟨pre ++ sk :: post⟩ = (.error e, ⟨pre' ++ sk' :: post⟩) ∧
         List.Forall₂ (fun s s' => s'.flushCount = s.flushCount + 1) pre pre' ∧
         sk'.flushCount = sk.flushCount + 1) := by
  constructor
  · intro ws hok
    obtain ⟨ws', hgo, hfa⟩ := mwFlushGo_ok ws hok
    exact ⟨ws', by simp [MultiWriter.flush, hgo], hfa⟩
  · intro pre sk post e sk' hpre hk
    obtain ⟨pre', hgo, hfa⟩ := mwFlushGo_err pre sk post e sk' hpre hk
    have h2 : sk'.flushCount = sk.flushCount + 1 := by
      have := Sink.flush_count sk
      rw [hk] at this
      exact this
    exact ⟨pre', by simp [MultiWriter.flush, hgo], hfa, h2⟩

/-- Witness for C4 at a concrete input: a clean sink followed by a sink
whose flush fails, followed by an untouched one. -/
theorem multiWriter_flush_propagation_witness :
    ∃ pre',
      MultiWriter.flush
          ⟨[pureSink] ++ (⟨[], [], [some (IOError.custom 3)], 0⟩ : Sink) :: [pureSink]⟩ =
        (.error (IOError.custom 3), ⟨pre' ++ (⟨[], [], [], 1⟩ : Sink) :: [pureSink]⟩) ∧
      List.Forall₂ (fun (s s' : Sink) => s'.flushCount = s.flushCount + 1)
        [pureSink] pre' ∧
      (1 : Nat) = 0 + 1 :=
  multiWriter_flush_propagation.2 [pureSink] ⟨[], [], [some (IOError.custom 3)], 0⟩
    [pureSink] (IOError.custom 3) ⟨[], [], [], 1⟩
    (fun s hs => ⟨⟨[], [], [], 1⟩, by
      have hsp : s = pureSink := by simpa using hs
      subst hsp; rfl⟩)
    rfl

/-! ## RoundRobinCopier helpers -/

/-- Characterization of `RoundRobinCopier::copy` when the cursor is in
range: the copy into the selected sink runs, the sink is updated in
place, and the cursor advances by one modulo the pool size. -/
theorem RoundRobinCopier.copy_eq (c : RoundRobinCopier) (src : List RResp)
    (hcur : c.current < c.writers.length) :
    c.copy src =
      some ((ioCopy src c.writers[c.current]).1,
        ⟨c.writers.set c.current (ioCopy src c.writers[c.current]).2.2,
          (c.current + 1) % c.writers.length⟩,
        (ioCopy src c.writers[c.current]).2.1) := by
  have hne : ¬ c.writers.length = 0 := by omega
  have hw : c.writers[c.current]? = some c.writers[c.current] :=
    List.getElem?_eq_getElem hcur
  rcases hio : ioCopy src c.writers[c.current] with ⟨r, rest, w'⟩
  simp [RoundRobinCopier.copy, hne, hw, hio]

/-- A successful run of the `std::io::copy` loop returns the accumulator
plus the number of bytes the source yields before exhaustion. -/
theorem copyGo_ok {σ : Type} (wa : σ → List Nat → Except IOError Unit × σ) :
    ∀ (src : List RResp) (w : σ) (acc t : Nat) (rest : List RResp) (w' : σ),
      copyGo wa src w acc = (.ok t, rest, w') → t = acc + produced src := by
  intro src
  induction src with
  | nil =>
    intro w acc t rest w' h
    simp [copyGo] at h
    simp [produced, ← h.1]
  | cons resp rest0 ih =>
    intro w acc t rest w' h
    cases resp with
    | give bs =>
      cases bs with
      | nil =>
        simp [copyGo] at h
        simp [produced, ← h.1]
      | cons b bs0 =>
        simp only [copyGo] at h
        rcases hw : wa w (b :: bs0) with ⟨r, w₁⟩
        rw [hw] at h
        cases r with
        | error e => simp at h
        | ok u =>
          have := ih w₁ (acc + (b :: bs0).length) t rest w' h
          simp only [produced, this]
          omega
    | fail e => simp [copyGo] at h

/-! ## Claims C6, C7, C9, C10 : `RoundRobinCopier` -/

/-- C6. Cursor advances on every invocation: for every copier whose
cursor is a valid index (so the call does not panic) and every source,
`copy` returns (whether with success or with an error) and the cursor
afterwards equals `(cursor before + 1) % N` with the pool size `N`
unchanged — so after a failed copy the next call targets the following
sink in rotation, not the one that just failed. -/
theorem roundRobin_cursor_advance (c : RoundRobinCopier) (src : List RResp)
    (hcur : c.current < c.writers.length) :
    ∃ r c' rest, c.copy src = some (r, c', rest) ∧
      c'.current = (c.current + 1) % c.writers.length ∧
      c'.writers.length = c.writers.length := by
  refine ⟨_, _, _, RoundRobinCopier.copy_eq c src hcur, rfl, ?_⟩
  simp

/-- Witness for C6 at a concrete input: the copy into the selected sink
fails, yet the cursor advances from 0 to `(0 + 1) % 2`. -/
theorem roundRobin_cursor_advance_witness :
    ∃ r c' rest,
      RoundRobinCopier.copy
          ⟨[⟨[], [WResp.fail (IOError.custom 1)], [], 0⟩, pureSink], 0⟩
          (mkSource [5, 6]) = some (r, c', rest) ∧
      c'.current = (0 + 1) % 2 ∧ c'.writers.length = 2 :=
  roundRobin_cursor_advance
    ⟨[⟨[], [WResp.fail (IOError.custom 1)], [], 0⟩, pureSink], 0⟩
    (mkSource [5, 6]) (by decide)

/-- C7. Byte-count fidelity: a successful `RoundRobinCopier::copy`, and
a successful `copy_into_many`, each return exactly the number of bytes
the source produced before exhaustion. -/
theorem copy_byte_count :
    (∀ (c : RoundRobinCopier) (src : List RResp) (t : Nat)
       (c' : RoundRobinCopier) (rest : List RResp),
       c.copy src = some (.ok t, c', rest) → t = produced src) ∧
    (∀ (src : List RResp) (ws : List Sink) (t : Nat) (rest : List RResp)
       (m' : MultiWriter),
       copy_into_many src ws = (.ok t, rest, m') → t = produced src) := by
  constructor
  · intro c src t c' rest h
    by_cases hcur : c.current < c.writers.length
    · rw [RoundRobinCopier.copy_eq c src hcur] at h
      rcases hio : ioCopy src c.writers[c.current] with ⟨r, rest₁, w'⟩
      rw [hio] at h
      simp only [Option.some.injEq, Prod.mk.injEq] at h
      obtain ⟨hr, hc', hrest⟩ := h
      rw [hr] at hio
      unfold ioCopy at hio
      simpa using copyGo_ok Sink.write_all src c.writers[c.current] 0 t rest₁ w' hio
    · have hnone : c.copy src = none := by
        unfold RoundRobinCopier.copy
        by_cases h0 : c.writers.length = 0
        · simp [h0]
        · have hge : c.writers[c.current]? = none := by
            rw [List.getElem?_eq_none_iff]
            omega
          simp [h0, hge]
      rw [hnone] at h
      exact absurd h (by simp)
  · intro src ws t rest m' h
    unfold copy_into_many at h
    simpa using copyGo_ok MultiWriter.write_all src ⟨ws⟩ 0 t rest m' h

/-- Witness for C7 at concrete inputs for both copy operations. -/
theorem copy_byte_count_witness :
    (2 : Nat) = produced (mkSource [5, 6]) ∧
    (3 : Nat) = produced (mkSource [7, 8, 9]) :=
  ⟨copy_byte_count.1 (RoundRobinCopier.new [pureSink]) (mkSource [5, 6]) 2
      ⟨[⟨[5, 6], [], [], 0⟩], 0⟩ [] rfl,
   copy_byte_count.2 (mkSource [7, 8, 9]) [pureSink] 3 []
      ⟨[⟨[7, 8, 9], [], [], 0⟩]⟩ rfl⟩

/-- C9. Cursor invariant: the cursor is initialized to 0 by
`RoundRobinCopier::new` (hence a valid index when `N ≥ 1`), and every
`copy` invocation that returns — whether with success or with an error —
leaves the cursor a valid index into the (length-preserved) sink
sequence. -/
theorem roundRobin_cursor_invariant :
    (∀ ws : List Sink, (RoundRobinCopier.new ws).current = 0) ∧
    (∀ ws : List Sink, 1 ≤ ws.length →
       (RoundRobinCopier.new ws).current < ws.length) ∧
    (∀ (c : RoundRobinCopier) (src : List RResp) (r : Except IOError Nat)
       (c' : RoundRobinCopier) (rest : List RResp),
       c.current < c.writers.length → c.copy src = some (r, c', rest) →
       c'.current < c'.writers.length) := by
  refine ⟨fun ws => rfl, fun ws h => h, ?_⟩
  intro c src r c' rest hcur h
  rw [RoundRobinCopier.copy_eq c src hcur] at h
  simp only [Option.some.injEq, Prod.mk.injEq] at h
  obtain ⟨hr, hc', hrest⟩ := h
  rw [← hc']
  simp only [List.length_set]
  exact Nat.mod_lt _ (by omega)

/-- Witness for C9 at concrete inputs: construction, and one copy call
(which here succeeds) preserving the invariant. -/
theorem roundRobin_cursor_invariant_witness :
    (RoundRobinCopier.new [pureSink]).current = 0 ∧
    (RoundRobinCopier.new [pureSink]).current < 1 ∧
    (⟨[⟨[5, 6], [], [], 0⟩], 0⟩ : RoundRobinCopier).current <
      (⟨[⟨[5, 6], [], [], 0⟩], 0⟩ : RoundRobinCopier).writers.length :=
  ⟨roundRobin_cursor_invariant.1 [pureSink],
   roundRobin_cursor_invariant.2.1 [pureSink] (by decide),
   roundRobin_cursor_invariant.2.2 (RoundRobinCopier.new [pureSink])
     (mkSource [5, 6]) (.ok 2) ⟨[⟨[5, 6], [], [], 0⟩], 0⟩ [] (by decide) rfl⟩

/-- C10. Zero-sink construction and the reachability of the panic
branch: `RoundRobinCopier::new []` returns normally (no construction-time
rejection), the very first `copy` on it hits `(0 + 1) % 0` — modulo by
zero, a panic, modelled as `none` — so `copy` is not total for `N = 0`;
and for every copier whose cursor is a valid index (every copier
reachable with `N ≥ 1`, by the cursor invariant) `copy` does return, so
the panic branch is never reached. -/
theorem roundRobin_zero_sinks :
    RoundRobinCopier.new [] = ⟨[], 0⟩ ∧
    (∀ src : List RResp, (RoundRobinCopier.new []).copy src = none) ∧
    (∀ (c : RoundRobinCopier) (src : List RResp),
       c.current < c.writers.length → (c.copy src).isSome) := by
  refine ⟨rfl, fun src => rfl, ?_⟩
  intro c src hcur
  rw [RoundRobinCopier.copy_eq c src hcur]
  rfl

/-- Witness for C10 at a concrete input with one sink. -/
theorem roundRobin_zero_sinks_witness :
    (RoundRobinCopier.copy (RoundRobinCopier.new [pureSink]) (mkSource [1])).isSome :=
  roundRobin_zero_sinks.2.2 (RoundRobinCopier.new [pureSink]) (mkSource [1])
    (by decide)

/-! ## Claim C5 : round-robin cycling -/

/-- `std::io::copy` of a one-chunk source into a sink with an exhausted
write script: it succeeds, returns the content length and appends the
content to the sink. -/
theorem ioCopy_pure (w : Sink) (hw : w.plan = []) (c : List Nat) :
    ioCopy (mkSource c) w =
      (.ok c.length, [], { w with content := w.content ++ c }) := by
  cases c with
  | nil => simp [ioCopy, mkSource, copyGo]
  | cons b bs =>
    simp [ioCopy, mkSource, copyGo, Sink.write_all_pure w hw (b :: bs)]

/-- One `RoundRobinCopier::copy` of a one-chunk source over all-accepting
sinks: the sink at the cursor gains the content, the cursor advances. -/
theorem rr_copy_pure (ws : List Sink) (cur : Nat) (c : List Nat)
    (hcur : cur < ws.length) (hp : ws[cur].plan = []) :
    RoundRobinCopier.copy ⟨ws, cur⟩ (mkSource c) =
      some (.ok c.length,
        ⟨ws.set cur { ws[cur] with content := ws[cur].content ++ c },
          (cur + 1) % ws.length⟩, []) := by
  rw [RoundRobinCopier.copy_eq ⟨ws, cur⟩ (mkSource c) hcur]
  simp [ioCopy_pure ws[cur] hp c]

/-- Round-robin distribution invariant: running successive copies of the
given contents from a copier whose cursor is `i % N`, over all-accepting
sinks, succeeds; afterwards the cursor is `(i + M) % N` and sink `j` has
gained exactly the concatenation of the contents whose absolute call
index is congruent to `j` modulo `N`. -/
theorem runCopies_pure_aux (N : Nat) (hN : 0 < N) (cs : List (List Nat)) :
    ∀ (ws : List Sink) (i : Nat),
      ws.length = N → (∀ s ∈ ws, s.plan = []) →
      ∃ ws'', runCopies ⟨ws, i % N⟩ (cs.map mkSource) =
          some ⟨ws'', (i + cs.length) % N⟩ ∧
        ws''.length = N ∧
        ∀ (j : Nat) (s s' : Sink), ws[j]? = some s → ws''[j]? = some s' →
          s'.content = s.content ++ everyNth N j cs i := by
  induction cs with
  | nil =>
    intro ws i hlen hpure
    refine ⟨ws, by simp [runCopies], hlen, ?_⟩
    intro j s s' h1 h2
    rw [h1] at h2
    injection h2 with h2
    subst h2
    simp [everyNth]
  | cons c rest ih =>
    intro ws i hlen hpure
    have hcur : i % N < ws.length := by rw [hlen]; exact Nat.mod_lt _ hN
    have hp : ws[i % N].plan = [] := hpure _ (List.getElem_mem hcur)
    have hlen₁ :
        (ws.set (i % N)
          { ws[i % N] with content := ws[i % N].content ++ c }).length = N := by
      simp [hlen]
    have hpure₁ : ∀ s ∈ ws.set (i % N)
        { ws[i % N] with content := ws[i % N].content ++ c }, s.plan = [] := by
      intro s hs
      rcases List.mem_or_eq_of_mem_set hs with h | h
      · exact hpure s h
      · rw [h]; exact hp
    obtain ⟨ws'', hrun, hlen'', hcont⟩ :=
      ih (ws.set (i % N) { ws[i % N] with content := ws[i % N].content ++ c })
        (i + 1) hlen₁ hpure₁
    have hstep := rr_copy_pure ws (i % N) c hcur hp
    have hcur1 : (i % N + 1) % N = (i + 1) % N := Nat.mod_add_mod i N 1
    have harith : i + 1 + rest.length = i + (rest.length + 1) := by omega
    refine ⟨ws'', ?_, hlen'', ?_⟩
    · simp only [List.map_cons, runCopies, hstep, hlen, hcur1, harith,
        List.length_cons, hrun]
    · intro j s s' h1 h2
      by_cases hj : i % N = j
      · subst hj
        have h1' : (ws.set (i % N)
            { ws[i % N] with content := ws[i % N].content ++ c })[i % N]? =
              some { ws[i % N] with content := ws[i % N].content ++ c } :=
          List.getElem?_set_self hcur
        have hrec := hcont (i % N) _ s' h1' h2
        have hs : s = ws[i % N] := by
          rw [List.getElem?_eq_getElem hcur] at h1
          injection h1 with h1
          exact h1.symm
        rw [hrec, hs]
        simp [everyNth, List.append_assoc]
      · have h1' : (ws.set (i % N)
            { ws[i % N] with content := ws[i % N].content ++ c })[j]? = ws[j]? :=
          List.getElem?_set_ne hj
        have hrec := hcont j s s' (by rw [h1']; exact h1) h2
        rw [hrec]
        simp [everyNth, hj]

/-- C5. Round-robin cycling: over `N ≥ 1` fresh sinks, `M` successive
`copy` calls for sources with contents `C_0, …, C_{M-1}`, each read to
exhaustion, all succeed, and afterwards sink `j` contains exactly the
concatenation, in call order, of every `C_i` with `i % N = j`
(`everyNth N j cs 0`) and no other bytes. -/
theorem roundRobin_cycling (N : Nat) (hN : 1 ≤ N) (cs : List (List Nat)) :
    ∃ c', runCopies (RoundRobinCopier.new (List.replicate N pureSink))
        (cs.map mkSource) = some c' ∧
      c'.writers.length = N ∧
      ∀ j, j < N → ∃ s, c'.writers[j]? = some s ∧
        s.content = everyNth N j cs 0 := by
  obtain ⟨ws'', hrun, hlen, hcont⟩ :=
    runCopies_pure_aux N hN cs (List.replicate N pureSink) 0
      (List.length_replicate N pureSink)
      (fun s hs => by rw [List.eq_of_mem_replicate hs]; rfl)
  rw [Nat.zero_mod] at hrun
  refine ⟨⟨ws'', (0 + cs.length) % N⟩, ?_, hlen, ?_⟩
  · simpa [RoundRobinCopier.new] using hrun
  · intro j hj
    have hjl : j < ws''.length := by omega
    refine ⟨ws''[j], List.getElem?_eq_getElem hjl, ?_⟩
    have h1 : (List.replicate N pureSink)[j]? = some pureSink :=
      List.getElem?_replicate_of_lt hj
    have hrec := hcont j pureSink ws''[j] h1 (List.getElem?_eq_getElem hjl)
    simpa [pureSink] using hrec

/-- Witness for C5 at the spec scenario shape: 3 sinks, 4 copies. -/
theorem roundRobin_cycling_witness :
    ∃ c', runCopies (RoundRobinCopier.new (List.replicate 3 pureSink))
        ([[1], [2], [3], [4]].map mkSource) = some c' ∧
      c'.writers.length = 3 ∧
      ∀ j, j < 3 → ∃ s, c'.writers[j]? = some s ∧
        s.content = everyNth 3 j [[1], [2], [3], [4]] 0 :=
  roundRobin_cycling 3 (by decide) [[1], [2], [3], [4]]

end Streams
